import Mathlib

/-!
Verification of the memalloc allocator (src/memalloc.cpp).

The allocator keeps a singly linked list of block records (`union header`),
each prefixed immediately before the user region it describes, plus the
process heap boundary moved by `sbrk`.  We embed the allocator state as the
list of records in creation (= list) order together with the current break
address and an abstract byte memory, and each entry point
(`malloc`, `free`, `calloc`, `realloc`) as a function on that state.

Conventions of the embedding:
- Addresses and sizes are `Nat`; the null pointer is address 0.
- `headerSize` is `sizeof(header_t)`: the union of
  `struct { size_t size; unsigned is_free; header *next; }` (8 + 4 + 4
  padding + 8 = 24 bytes on LP64) with `char[16]`, so 24 bytes.
- The `next` chain of the C list is represented by list adjacency; `head`
  is the first list element and `tail` the last.
- `sbrk` success/failure is an explicit `Bool` argument to the operations
  that may extend the heap (`sbrk(0)` and retraction never fail).
- Byte memory is `mem : Nat → Nat`; the record fields live in the block
  list, not in `mem` (in any reachable state header regions and user
  regions are disjoint, see the tiling invariant below).
- Dereferencing a header through a user pointer (`free`, `realloc`) is
  embedded as looking up the record whose address is `p - headerSize`;
  for a pointer that is not a live allocation the C code has undefined
  behaviour, and the embedding makes those calls a no-op.
- `size_t` multiplication in `calloc` wraps modulo `2 ^ 64` (`SIZE_MOD`),
  exactly as the C overflow back-check relies on.
-/

namespace Memalloc

/-- The value of `sizeof(header_t)` on LP64: the union of the 24-byte field struct with
`char[16]` has size 24. -/
def headerSize : Nat := 24

/-- The constant `2 ^ 64`, the modulus of `size_t` arithmetic. -/
def SIZE_MOD : Nat := 2 ^ 64

/-- One block record (`header_t`): address of the header itself, the size of
the user region that follows it, and the free flag.  The `next` pointer of
the C struct is represented by adjacency in the state's block list. -/
structure Block where
  addr : Nat
  size : Nat
  is_free : Bool
deriving DecidableEq

/-- The user pointer handed to the caller: `header_ptr + 1`. -/
def Block.userPtr (b : Block) : Nat := b.addr + headerSize

/-- Allocator state: the linked list of records in creation order
(`head` = first element, `tail` = last), the current program break, and the
byte memory. -/
structure AllocState where
  blocks : List Block
  brk : Nat
  mem : Nat → Nat

/-- The function `get_free_block`: first-fit scan from `head`; returns the index and the
record of the first block with `is_free` set and recorded size at least
`size`. -/
def get_free_block (size : Nat) : List Block → Option (Nat × Block)
  | [] => none
  | b :: bs =>
    if b.is_free ∧ b.size ≥ size then some (0, b)
    else (get_free_block size bs).map (fun p => (p.1 + 1, p.2))

/-- The function `malloc`: zero size returns null; otherwise reuse the first fitting free
block (clearing its flag), else extend the break by
`sizeof(header_t) + size` (when `sbrk` succeeds) and append a fresh record
at the old break. -/
def malloc (s : AllocState) (size : Nat) (sbrkOk : Bool) :
    Option Nat × AllocState :=
  if size = 0 then (none, s)
  else
    match get_free_block size s.blocks with
    | some (i, b) =>
      (some b.userPtr,
       { s with blocks := s.blocks.set i { b with is_free := false } })
    | none =>
      if sbrkOk then
        let newb : Block := { addr := s.brk, size := size, is_free := false }
        (some newb.userPtr,
         { s with blocks := s.blocks ++ [newb],
                  brk := s.brk + (headerSize + size) })
      else (none, s)

/-- The function `free`: null is a no-op; otherwise recover the header at
`p - headerSize`.  If the user region ends exactly at the break, unlink the
tail record (clearing `head`/`tail` when it was the only block) and retract
the break by `sizeof(header_t) + size`; otherwise just set the record's
free flag.  A pointer whose header address matches no record is undefined
behaviour in the C code and is embedded as a no-op. -/
def free (s : AllocState) (p : Nat) : AllocState :=
  if p = 0 then s
  else
    match s.blocks.find? (fun c => c.addr == p - headerSize) with
    | none => s
    | some b =>
      if p + b.size = s.brk then
        { s with
          blocks := if s.blocks.length = 1 then [] else s.blocks.dropLast,
          brk := s.brk - (headerSize + b.size) }
      else
        { s with
          blocks := s.blocks.map (fun c =>
            if c.addr == p - headerSize then { c with is_free := true }
            else c) }

/-- The effect of `memset(p, v, n)` on the abstract byte memory. -/
def memset (m : Nat → Nat) (p v n : Nat) : Nat → Nat :=
  fun a => if p ≤ a ∧ a < p + n then v else m a

/-- The effect of `memcpy(dst, src, n)` on the abstract byte memory. -/
def memcpy (m : Nat → Nat) (dst src n : Nat) : Nat → Nat :=
  fun a => if dst ≤ a ∧ a < dst + n then m (src + (a - dst)) else m a

/-- The function `calloc`: null when either count is zero; compute `num * nsize` in
wrapping `size_t` arithmetic and reject overflow by the division
back-check; delegate to `malloc` and zero the returned region.  The C
local variable `size = num * nsize` is inlined as
`(num * nsize) % SIZE_MOD`. -/
def calloc (s : AllocState) (num nsize : Nat) (sbrkOk : Bool) :
    Option Nat × AllocState :=
  if num = 0 ∨ nsize = 0 then (none, s)
  else if nsize ≠ ((num * nsize) % SIZE_MOD) / num then (none, s)
  else
    match malloc s ((num * nsize) % SIZE_MOD) sbrkOk with
    | (none, s1) => (none, s1)
    | (some p, s1) =>
      (some p, { s1 with mem := memset s1.mem p 0 ((num * nsize) % SIZE_MOD) })

/-- The function `realloc`: a null pointer or zero size delegates to `malloc`; if the
record's recorded size already covers the request, return the pointer
unchanged; otherwise allocate a new block, copy the old recorded size
bytes, release the old pointer, and return the new block (null and no
change when the allocation fails). -/
def realloc (s : AllocState) (p size : Nat) (sbrkOk : Bool) :
    Option Nat × AllocState :=
  if p = 0 ∨ size = 0 then malloc s size sbrkOk
  else
    match s.blocks.find? (fun c => c.addr == p - headerSize) with
    | none => (none, s)
    | some b =>
      if b.size ≥ size then (some p, s)
      else
        match malloc s size sbrkOk with
        | (some np, s1) =>
          (some np, free { s1 with mem := memcpy s1.mem np p b.size } p)
        | (none, s1) => (none, s1)

/-- One client call, with the `sbrk` outcome for the calls that may extend
the heap. -/
inductive Op where
  | mallocOp (size : Nat) (sbrkOk : Bool)
  | freeOp (p : Nat)
  | callocOp (num nsize : Nat) (sbrkOk : Bool)
  | reallocOp (p size : Nat) (sbrkOk : Bool)

/-- Apply one call to the state. -/
def step (s : AllocState) : Op → AllocState
  | .mallocOp n ok => (malloc s n ok).2
  | .freeOp p => free s p
  | .callocOp a b ok => (calloc s a b ok).2
  | .reallocOp p n ok => (realloc s p n ok).2

/-- Run a sequence of calls. -/
def run (s : AllocState) (ops : List Op) : AllocState :=
  ops.foldl step s

/-- The initial state: empty list, break at `base`, arbitrary memory. -/
def init (base : Nat) (m : Nat → Nat) : AllocState :=
  { blocks := [], brk := base, mem := m }

/-- The invariant `tilesFrom a bs k`: the records `bs`, in list order, exactly tile the
address range from `a` to `k`: each record sits at the cursor and advances
it by `headerSize + size`, and the final cursor is the break `k`. -/
def tilesFrom : Nat → List Block → Nat → Prop
  | a, [], k => k = a
  | a, b :: bs, k => b.addr = a ∧ tilesFrom (a + (headerSize + b.size)) bs k

instance instDecTilesFrom : (a : Nat) → (l : List Block) → (k : Nat) →
    Decidable (tilesFrom a l k)
  | _, [], _ => inferInstanceAs (Decidable (_ = _))
  | a, b :: bs, k =>
    haveI := instDecTilesFrom (a + (headerSize + b.size)) bs k
    inferInstanceAs (Decidable (_ ∧ _))

/-! ### Basic lemmas about `get_free_block` -/

/-- Soundness of the first-fit scan: a hit is the record at the returned
index, it satisfies the search condition, and no earlier record does. -/
theorem get_free_block_sound {n : Nat} :
    ∀ {bs : List Block} {i : Nat} {b : Block},
      get_free_block n bs = some (i, b) →
      bs[i]? = some b ∧ b.is_free = true ∧ n ≤ b.size ∧
        ∀ j, j < i → ∀ c, bs[j]? = some c → ¬(c.is_free = true ∧ n ≤ c.size)
  | [], i, b, h => by simp [get_free_block] at h
  | c :: cs, i, b, h => by
    rw [get_free_block] at h
    split at h
    · rename_i hc
      obtain ⟨hi, hb⟩ : 0 = i ∧ c = b := by
        simpa using h
      subst hi; subst hb
      refine ⟨by simp, hc.1, hc.2, ?_⟩
      intro j hj; omega
    · rename_i hc
      obtain ⟨⟨i', b'⟩, hrec, heq⟩ := Option.map_eq_some'.mp h
      obtain ⟨hi, hb⟩ : i' + 1 = i ∧ b' = b := by
        simpa using heq
      subst hi; subst hb
      obtain ⟨h1, h2, h3, h4⟩ := get_free_block_sound hrec
      refine ⟨by simpa using h1, h2, h3, ?_⟩
      intro j hj d hd
      match j with
      | 0 =>
        obtain rfl : c = d := by simpa using hd
        simpa using hc
      | j + 1 =>
        exact h4 j (by omega) d (by simpa using hd)

/-- Completeness of the first-fit scan: when the list is exhausted without a
hit, no record satisfies the condition. -/
theorem get_free_block_none {n : Nat} :
    ∀ {bs : List Block},
      get_free_block n bs = none ↔
        ∀ b ∈ bs, ¬(b.is_free = true ∧ n ≤ b.size)
  | [] => by simp [get_free_block]
  | c :: cs => by
    rw [get_free_block]
    split
    · rename_i hc
      simp only [iff_false, reduceCtorEq, false_iff]
      intro hall
      exact hall c (by simp) hc
    · rename_i hc
      simp only [Option.map_eq_none', get_free_block_none, List.mem_cons]
      constructor
      · rintro hall b (rfl | hb)
        · exact hc
        · exact hall b hb
      · intro hall b hb
        exact hall b (Or.inr hb)

/-- The function `malloc` never touches the byte memory. -/
theorem malloc_mem (s : AllocState) (n : Nat) (ok : Bool) :
    (malloc s n ok).2.mem = s.mem := by
  rw [malloc]
  split
  · rfl
  · split
    · rfl
    · split <;> rfl

/-- The function `free` never touches the byte memory. -/
theorem free_mem (s : AllocState) (p : Nat) :
    (free s p).mem = s.mem := by
  rw [free]
  split
  · rfl
  · split
    · rfl
    · split <;> rfl

/-- The function `malloc` never shrinks the break. -/
theorem malloc_brk_le (s : AllocState) (n : Nat) (ok : Bool) :
    s.brk ≤ (malloc s n ok).2.brk := by
  rw [malloc]
  split
  · exact Nat.le_refl _
  · split
    · exact Nat.le_refl _
    · split
      · exact Nat.le_add_right _ _
      · exact Nat.le_refl _

/-! ### C8: `realloc(p, 0)` delegates to `malloc(0)` and changes nothing -/

/-- C8: for every non-null pointer `p`, `realloc(p, 0)` delegates to
`malloc(0)`, hence returns null and leaves the allocator state (list,
records, break, memory) completely unchanged: the block is neither freed
nor returned, i.e. it is silently leaked. -/
theorem claim8 (s : AllocState) (p : Nat) (ok : Bool) (hp : p ≠ 0) :
    realloc s p 0 ok = malloc s 0 ok ∧ realloc s p 0 ok = (none, s) := by
  constructor
  · rw [realloc]
    simp
  · rw [realloc]
    simp [malloc]

/-- Witness for C8 at a concrete live allocation. -/
theorem claim8_witness :
    (24 : Nat) ≠ 0 ∧
      (realloc { blocks := [{ addr := 0, size := 5, is_free := false }],
                 brk := 29, mem := fun _ => 3 } 24 0 true
          = malloc { blocks := [{ addr := 0, size := 5, is_free := false }],
                     brk := 29, mem := fun _ => 3 } 0 true ∧
        realloc { blocks := [{ addr := 0, size := 5, is_free := false }],
                  brk := 29, mem := fun _ => 3 } 24 0 true
          = (none, { blocks := [{ addr := 0, size := 5, is_free := false }],
                     brk := 29, mem := fun _ => 3 })) :=
  ⟨by decide, claim8 _ 24 true (by decide)⟩

/-! ### C9: failed heap growth leaves the state unchanged -/

/-- C9: for a positive request with no reusable free block, when the OS
boundary-extension primitive fails, `malloc` returns null and the state is
exactly the state before the call: no record is appended, no field of any
existing record changes, and the break does not move. -/
theorem claim9 (s : AllocState) (n : Nat) (hn : 0 < n)
    (hno : ∀ b ∈ s.blocks, ¬(b.is_free = true ∧ n ≤ b.size)) :
    malloc s n false = (none, s) := by
  rw [malloc]
  rw [if_neg (by omega)]
  rw [get_free_block_none.mpr hno]
  simp

/-- Witness for C9: a state with one live block too small to reuse. -/
theorem claim9_witness :
    (0 < 7 ∧
      (∀ b ∈ [({ addr := 0, size := 5, is_free := true } : Block)],
        ¬(b.is_free = true ∧ 7 ≤ b.size))) ∧
    malloc { blocks := [{ addr := 0, size := 5, is_free := true }],
             brk := 29, mem := fun _ => 0 } 7 false
      = (none, { blocks := [{ addr := 0, size := 5, is_free := true }],
                 brk := 29, mem := fun _ => 0 }) :=
  ⟨⟨by decide, by decide⟩, claim9 _ 7 (by decide) (by decide)⟩

/-! ### C1: first-fit reuse -/

/-- Existence of a first-fit hit when some free block fits. -/
theorem get_free_block_isSome {n : Nat} :
    ∀ {bs : List Block}, (∃ b ∈ bs, b.is_free = true ∧ n ≤ b.size) →
      ∃ i b, get_free_block n bs = some (i, b)
  | [], h => by simp at h
  | c :: cs, h => by
    rw [get_free_block]
    split
    · exact ⟨0, c, rfl⟩
    · rename_i hc
      obtain ⟨b, hb, hcond⟩ := h
      rcases List.mem_cons.mp hb with rfl | hb
      · exact absurd hcond hc
      · obtain ⟨i, b', hrec⟩ := get_free_block_isSome ⟨b, hb, hcond⟩
        exact ⟨i + 1, b', by rw [hrec]; rfl⟩

/-- C1: for a positive request for which some free block of sufficient
recorded size exists, `malloc` picks the first such record in list order,
returns its user pointer `record address + sizeof(header_t)`, clears its
free flag in place without changing its recorded size, and neither moves
the break nor appends a record. -/
theorem claim1 (s : AllocState) (n : Nat) (ok : Bool) (hn : 0 < n)
    (hex : ∃ b ∈ s.blocks, b.is_free = true ∧ n ≤ b.size) :
    ∃ i b, s.blocks[i]? = some b ∧ b.is_free = true ∧ n ≤ b.size
      ∧ (∀ j, j < i → ∀ c, s.blocks[j]? = some c →
          ¬(c.is_free = true ∧ n ≤ c.size))
      ∧ malloc s n ok = (some (b.addr + headerSize),
          { s with blocks := s.blocks.set i { b with is_free := false } })
      ∧ (malloc s n ok).2.brk = s.brk
      ∧ (malloc s n ok).2.blocks.length = s.blocks.length
      ∧ (malloc s n ok).2.blocks[i]? =
          some { addr := b.addr, size := b.size, is_free := false } := by
  obtain ⟨i, b, hfind⟩ := get_free_block_isSome hex
  obtain ⟨hib, hfree, hsz, hfirst⟩ := get_free_block_sound hfind
  have hmal : malloc s n ok = (some (b.addr + headerSize),
      { s with blocks := s.blocks.set i { b with is_free := false } }) := by
    rw [malloc, if_neg (by omega), hfind]
    rfl
  refine ⟨i, b, hib, hfree, hsz, hfirst, hmal, by rw [hmal], ?_, ?_⟩
  · rw [hmal]; simp
  · rw [hmal]
    simpa using List.getElem?_set_self' (l := s.blocks)
      (i := i) (a := { b with is_free := false })
      |>.trans (by rw [hib]; rfl)

/-- Witness for C1: two free blocks fit; the first (index 0) is taken. -/
theorem claim1_witness :
    (0 < 7 ∧
      ∃ b ∈ [({ addr := 0, size := 10, is_free := true } : Block),
             { addr := 34, size := 20, is_free := true }],
        b.is_free = true ∧ 7 ≤ b.size) ∧
    (∃ i b,
      [({ addr := 0, size := 10, is_free := true } : Block),
       { addr := 34, size := 20, is_free := true }][i]? = some b
      ∧ b.is_free = true ∧ 7 ≤ b.size
      ∧ (∀ j, j < i → ∀ c,
          [({ addr := 0, size := 10, is_free := true } : Block),
           { addr := 34, size := 20, is_free := true }][j]? = some c →
          ¬(c.is_free = true ∧ 7 ≤ c.size))
      ∧ malloc { blocks := [{ addr := 0, size := 10, is_free := true },
                            { addr := 34, size := 20, is_free := true }],
                 brk := 88, mem := fun _ => 0 } 7 true
          = (some (b.addr + headerSize),
             { blocks := [({ addr := 0, size := 10, is_free := true } : Block),
                 { addr := 34, size := 20, is_free := true }].set i
                   { b with is_free := false },
               brk := 88, mem := fun _ => 0 })
      ∧ (malloc { blocks := [{ addr := 0, size := 10, is_free := true },
                             { addr := 34, size := 20, is_free := true }],
                  brk := 88, mem := fun _ => 0 } 7 true).2.brk = 88
      ∧ (malloc { blocks := [{ addr := 0, size := 10, is_free := true },
                             { addr := 34, size := 20, is_free := true }],
                  brk := 88, mem := fun _ => 0 } 7 true).2.blocks.length
          = [({ addr := 0, size := 10, is_free := true } : Block),
             { addr := 34, size := 20, is_free := true }].length
      ∧ (malloc { blocks := [{ addr := 0, size := 10, is_free := true },
                             { addr := 34, size := 20, is_free := true }],
                  brk := 88, mem := fun _ => 0 } 7 true).2.blocks[i]? =
          some { addr := b.addr, size := b.size, is_free := false }) :=
  ⟨⟨by decide, by decide⟩,
    claim1 { blocks := [{ addr := 0, size := 10, is_free := true },
                        { addr := 34, size := 20, is_free := true }],
             brk := 88, mem := fun _ => 0 } 7 true
      (by decide) (by decide)⟩

/-! ### Locating a live record by its address -/

/-- When all record addresses are distinct, the header lookup by the
address of a member record finds exactly that record. -/
theorem find?_addr_self :
    ∀ {bs : List Block} {b : Block},
      bs.Pairwise (fun x y => x.addr ≠ y.addr) → b ∈ bs →
      bs.find? (fun c => c.addr == b.addr) = some b
  | [], b, _, hb => by simp at hb
  | c :: cs, b, hd, hb => by
    rcases List.mem_cons.mp hb with rfl | hb
    · simp [List.find?]
    · have hne : c.addr ≠ b.addr :=
        (List.pairwise_cons.mp hd).1 b hb
      rw [List.find?]
      rw [show (c.addr == b.addr) = false by simpa using hne]
      exact find?_addr_self (List.pairwise_cons.mp hd).2 hb

/-! ### C5: `realloc` with a sufficient existing block -/

/-- C5: for a live pointer whose record's recorded size already covers the
positive request, `realloc` returns the same pointer and the whole
allocator state — record fields, list structure, break, memory — is
exactly the state before the call. -/
theorem claim5 (s : AllocState) (p size : Nat) (b : Block) (ok : Bool)
    (hdist : s.blocks.Pairwise (fun x y => x.addr ≠ y.addr))
    (hb : b ∈ s.blocks) (hp : p = b.addr + headerSize)
    (hsz : 0 < size) (hfit : size ≤ b.size) :
    realloc s p size ok = (some p, s) := by
  have hp0 : p ≠ 0 := by rw [hp, headerSize]; omega
  have hsub : p - headerSize = b.addr := by rw [hp]; omega
  rw [realloc, if_neg (by omega), hsub, find?_addr_self hdist hb]
  simp [hfit]

/-- Witness for C5 at a concrete two-block state. -/
theorem claim5_witness :
    ([({ addr := 0, size := 10, is_free := false } : Block),
      { addr := 34, size := 20, is_free := false }].Pairwise
        (fun x y => x.addr ≠ y.addr)
      ∧ ({ addr := 34, size := 20, is_free := false } : Block) ∈
          [({ addr := 0, size := 10, is_free := false } : Block),
           { addr := 34, size := 20, is_free := false }]
      ∧ (58 : Nat) = 34 + headerSize ∧ 0 < 15 ∧ 15 ≤ 20) ∧
    realloc { blocks := [{ addr := 0, size := 10, is_free := false },
                         { addr := 34, size := 20, is_free := false }],
              brk := 88, mem := fun _ => 0 } 58 15 true
      = (some 58, { blocks := [{ addr := 0, size := 10, is_free := false },
                               { addr := 34, size := 20, is_free := false }],
                    brk := 88, mem := fun _ => 0 }) :=
  ⟨⟨by decide, by decide, by decide, by decide, by decide⟩,
    claim5 _ 58 15 { addr := 34, size := 20, is_free := false } true
      (by decide) (by decide) (by decide) (by decide) (by decide)⟩

/-! ### C3: `calloc` overflow check and zero fill -/

/-- The division back-check of `calloc` detects exactly the products that
overflow `size_t`. -/
theorem overflow_check (num nsize : Nat) (hnum : num ≠ 0) :
    nsize = ((num * nsize) % SIZE_MOD) / num ↔ num * nsize < SIZE_MOD := by
  have hpos : 0 < num := Nat.pos_of_ne_zero hnum
  constructor
  · intro h
    by_contra hge
    push_neg at hge
    have hmod : (num * nsize) % SIZE_MOD < num * nsize :=
      lt_of_lt_of_le (Nat.mod_lt _ (by rw [SIZE_MOD]; positivity)) hge
    have hdiv : ((num * nsize) % SIZE_MOD) / num < nsize :=
      (Nat.div_lt_iff_lt_mul hpos).mpr
        (by rw [Nat.mul_comm nsize num]; exact hmod)
    omega
  · intro h
    rw [Nat.mod_eq_of_lt h, Nat.mul_div_cancel_left _ hpos]

/-- Applying `calloc` with a zero count returns null without any effect. -/
theorem calloc_zero (s : AllocState) (num nsize : Nat) (ok : Bool)
    (h : num = 0 ∨ nsize = 0) : calloc s num nsize ok = (none, s) := by
  rw [calloc, if_pos h]

/-- Applying `calloc` on an overflowing product returns null without any effect. -/
theorem calloc_over (s : AllocState) (num nsize : Nat) (ok : Bool)
    (hnum : num ≠ 0) (hover : SIZE_MOD ≤ num * nsize) :
    calloc s num nsize ok = (none, s) := by
  have hnsize : nsize ≠ 0 := by
    rintro rfl
    rw [Nat.mul_zero, SIZE_MOD] at hover
    norm_num at hover
  have hchk : nsize ≠ ((num * nsize) % SIZE_MOD) / num := by
    intro h
    have := (overflow_check num nsize hnum).mp h
    omega
  rw [calloc, if_neg (by tauto), if_pos hchk]

/-- In the non-degenerate, non-overflowing case `calloc` is `malloc` on
the exact product followed by a `memset` of the returned region. -/
theorem calloc_delegate (s : AllocState) (num nsize : Nat) (ok : Bool)
    (hnum : num ≠ 0) (hnsize : nsize ≠ 0) (hover : num * nsize < SIZE_MOD) :
    calloc s num nsize ok =
      match malloc s (num * nsize) ok with
      | (none, s1) => (none, s1)
      | (some p, s1) =>
        (some p, { s1 with mem := memset s1.mem p 0 (num * nsize) }) := by
  have hsz : (num * nsize) % SIZE_MOD = num * nsize := Nat.mod_eq_of_lt hover
  have hchk : ¬(nsize ≠ ((num * nsize) % SIZE_MOD) / num) := by
    simpa using (overflow_check num nsize hnum).mpr hover
  rw [hsz] at hchk
  rw [calloc, if_neg (by tauto)]
  simp only [hsz]
  rw [if_neg hchk]

/-- C3: `calloc` returns null exactly when a count is zero, the product
overflows `size_t` (caught by the wrapping division back-check), or the
delegated `malloc` fails; on overflow it returns before allocating,
leaving the state untouched; and on success it returns the pointer the
delegated `malloc(num * nsize)` returns, with the first `num * nsize`
bytes of that region zeroed. -/
theorem claim3 (s : AllocState) (num nsize : Nat) (ok : Bool) :
    ((calloc s num nsize ok).1 = none ↔
      num = 0 ∨ nsize = 0 ∨ SIZE_MOD ≤ num * nsize
        ∨ (malloc s (num * nsize) ok).1 = none)
    ∧ (SIZE_MOD ≤ num * nsize → calloc s num nsize ok = (none, s))
    ∧ (∀ p, (calloc s num nsize ok).1 = some p →
        (malloc s (num * nsize) ok).1 = some p
        ∧ (∀ a, p ≤ a → a < p + num * nsize →
            (calloc s num nsize ok).2.mem a = 0)) := by
  by_cases hz : num = 0 ∨ nsize = 0
  · have hcal := calloc_zero s num nsize ok hz
    refine ⟨by rw [hcal]; simp; tauto, ?_, by rw [hcal]; simp⟩
    intro h
    have : num * nsize = 0 := by
      rcases hz with rfl | rfl <;> simp
    rw [this, SIZE_MOD] at h
    norm_num at h
  · push_neg at hz
    obtain ⟨hnum, hnsize⟩ := hz
    by_cases hover : num * nsize < SIZE_MOD
    · have hcal := calloc_delegate s num nsize ok hnum hnsize hover
      rcases hm : malloc s (num * nsize) ok with ⟨r, s1⟩
      rw [hm] at hcal
      have hno : ¬ SIZE_MOD ≤ num * nsize := by omega
      rcases r with _ | p
      · rw [hcal]
        exact ⟨by simp, fun h => absurd h hno, by simp⟩
      · rw [hcal]
        refine ⟨by simp [hnum, hnsize, hno], fun h => absurd h hno, ?_⟩
        intro q hq
        obtain rfl : p = q := by simpa using hq
        refine ⟨rfl, ?_⟩
        intro a ha1 ha2
        simp [memset, ha1, ha2]
    · push_neg at hover
      have hcal := calloc_over s num nsize ok hnum hover
      refine ⟨by rw [hcal]; simp [hover], fun _ => hcal, ?_⟩
      intro q hq
      rw [hcal] at hq
      simp at hq

/-- Witness for C3: a non-overflowing and an overflowing instance. -/
theorem claim3_witness :
    ((calloc { blocks := [], brk := 0, mem := fun _ => 9 } 3 5 true).1 = none ↔
      (3 : Nat) = 0 ∨ (5 : Nat) = 0 ∨ SIZE_MOD ≤ 3 * 5
        ∨ (malloc { blocks := [], brk := 0, mem := fun _ => 9 } (3 * 5)
            true).1 = none)
    ∧ (SIZE_MOD ≤ 3 * 5 →
        calloc { blocks := [], brk := 0, mem := fun _ => 9 } 3 5 true
          = (none, { blocks := [], brk := 0, mem := fun _ => 9 }))
    ∧ (∀ p, (calloc { blocks := [], brk := 0, mem := fun _ => 9 } 3 5
          true).1 = some p →
        (malloc { blocks := [], brk := 0, mem := fun _ => 9 } (3 * 5)
            true).1 = some p
        ∧ (∀ a, p ≤ a → a < p + 3 * 5 →
            (calloc { blocks := [], brk := 0, mem := fun _ => 9 } 3 5
              true).2.mem a = 0))
    ∧ calloc { blocks := [], brk := 0, mem := fun _ => 9 }
        (2 ^ 32) (2 ^ 32) true
        = (none, { blocks := [], brk := 0, mem := fun _ => 9 }) :=
  ⟨(claim3 _ 3 5 true).1, (claim3 _ 3 5 true).2.1, (claim3 _ 3 5 true).2.2,
    (claim3 { blocks := [], brk := 0, mem := fun _ => 9 }
      (2 ^ 32) (2 ^ 32) true).2.1 (by rw [SIZE_MOD]; norm_num)⟩

/-! ### C10: reuse writes no user byte; `calloc` zeroes no surplus byte -/

/-- C10: when `malloc` satisfies a request by reusing a free block it does
not write a single byte of memory (the region keeps whatever its previous
owner left there), and a successful `calloc` changes no byte at or beyond
`p + num * nsize` — the surplus of a reused larger block is not zeroed. -/
theorem claim10 (s : AllocState) (ok : Bool) :
    (∀ n i b, get_free_block n s.blocks = some (i, b) →
      ∀ a, (malloc s n ok).2.mem a = s.mem a)
    ∧ (∀ num nsize p, (calloc s num nsize ok).1 = some p →
        ∀ a, p + num * nsize ≤ a →
          (calloc s num nsize ok).2.mem a = s.mem a) := by
  constructor
  · intro n i b _ a
    rw [malloc_mem]
  · intro num nsize p hp a ha
    by_cases hz : num = 0 ∨ nsize = 0
    · rw [calloc_zero s num nsize ok hz] at hp
      simp at hp
    · push_neg at hz
      obtain ⟨hnum, hnsize⟩ := hz
      by_cases hover : num * nsize < SIZE_MOD
      · have hcal := calloc_delegate s num nsize ok hnum hnsize hover
        rcases hm : malloc s (num * nsize) ok with ⟨rm, s1⟩
        rw [hm] at hcal
        rcases rm with _ | q
        · rw [hcal] at hp
          simp at hp
        · rw [hcal] at hp
          obtain rfl : q = p := by simpa using hp
          rw [hcal]
          have hmem1 : s1.mem = s.mem := by
            have := malloc_mem s (num * nsize) ok
            rw [hm] at this
            exact this
          simp only [memset]
          rw [if_neg (by omega), hmem1]
      · push_neg at hover
        rw [calloc_over s num nsize ok hnum hover] at hp
        simp at hp

/-- Witness for C10: reuse of an oversized free block via `calloc(1, 3)`;
the byte just past the three zeroed ones keeps its old value. -/
theorem claim10_witness :
    (∀ n i b,
      get_free_block n
        [({ addr := 0, size := 10, is_free := true } : Block)] = some (i, b) →
      ∀ a, (malloc { blocks := [{ addr := 0, size := 10, is_free := true }],
                     brk := 34, mem := fun _ => 9 } n true).2.mem a
        = (fun _ => (9 : Nat)) a)
    ∧ (∀ num nsize p,
        (calloc { blocks := [{ addr := 0, size := 10, is_free := true }],
                  brk := 34, mem := fun _ => 9 } num nsize true).1 = some p →
        ∀ a, p + num * nsize ≤ a →
          (calloc { blocks := [{ addr := 0, size := 10, is_free := true }],
                    brk := 34, mem := fun _ => 9 } num nsize true).2.mem a
            = (fun _ => (9 : Nat)) a) :=
  claim10 { blocks := [{ addr := 0, size := 10, is_free := true }],
            brk := 34, mem := fun _ => 9 } true

/-! ### Structural lemmas about the tiling invariant -/

/-- The tiling cursor only moves forward. -/
theorem tilesFrom_start_le :
    ∀ {a : Nat} {bs : List Block} {k : Nat}, tilesFrom a bs k → a ≤ k
  | _, [], _, h => Nat.le_of_eq h.symm
  | _, _ :: _, _, h =>
    Nat.le_trans (Nat.le_add_right _ _) (tilesFrom_start_le h.2)

/-- Every tiled record lies inside the tiled range. -/
theorem tilesFrom_le :
    ∀ {a : Nat} {bs : List Block} {k : Nat}, tilesFrom a bs k →
      ∀ b ∈ bs, a ≤ b.addr ∧ b.addr + (headerSize + b.size) ≤ k
  | _, [], _, _, b, hb => by simp at hb
  | a, c :: cs, k, h, b, hb => by
    rcases List.mem_cons.mp hb with rfl | hb
    · refine ⟨Nat.le_of_eq h.1.symm, ?_⟩
      rw [h.1]
      exact tilesFrom_start_le h.2
    · have := tilesFrom_le h.2 b hb
      exact ⟨by omega, this.2⟩

/-- Only the last tiled record's region ends at the break. -/
theorem tilesFrom_last :
    ∀ {a : Nat} {bs : List Block} {k : Nat}, tilesFrom a bs k →
      ∀ b ∈ bs, b.addr + (headerSize + b.size) = k → bs.getLast? = some b
  | _, [], _, _, b, hb, _ => by simp at hb
  | a, c :: cs, k, h, b, hb, hend => by
    rcases List.mem_cons.mp hb with rfl | hb
    · match cs, h.2 with
      | [], h2 => rfl
      | d :: ds, h2 =>
        exfalso
        have hd := tilesFrom_le h2 d (by simp)
        rw [h.1] at hend
        rw [headerSize] at *
        omega
    · have hrec := tilesFrom_last h.2 b hb hend
      match cs, hrec with
      | d :: ds, hrec => simpa using hrec

/-- Tiled records have strictly increasing addresses in list order. -/
theorem tilesFrom_pairwise :
    ∀ {a : Nat} {bs : List Block} {k : Nat}, tilesFrom a bs k →
      bs.Pairwise (fun x y => x.addr < y.addr)
  | _, [], _, _ => List.Pairwise.nil
  | a, c :: cs, k, h => by
    refine List.pairwise_cons.mpr ⟨?_, tilesFrom_pairwise h.2⟩
    intro b hb
    have := (tilesFrom_le h.2 b hb).1
    rw [h.1, headerSize] at *
    omega

/-- Tiled record addresses are pairwise distinct. -/
theorem tilesFrom_distinct {a : Nat} {bs : List Block} {k : Nat}
    (h : tilesFrom a bs k) : bs.Pairwise (fun x y => x.addr ≠ y.addr) :=
  (tilesFrom_pairwise h).imp Nat.ne_of_lt

/-- Removing the last tiled record tiles the range up to its address, which
sits exactly `headerSize + size` below the old break. -/
theorem tilesFrom_dropLast :
    ∀ {a : Nat} {bs : List Block} {k : Nat}, tilesFrom a bs k →
      ∀ {b : Block}, bs.getLast? = some b →
      tilesFrom a bs.dropLast b.addr ∧ k = b.addr + (headerSize + b.size)
  | _, [], _, _, b, hlast => by simp at hlast
  | a, [c], k, h, b, hlast => by
    obtain rfl : c = b := by simpa using hlast
    obtain ⟨h1, h2⟩ := h
    refine ⟨by simpa [tilesFrom] using h1, ?_⟩
    rw [← h1] at h2
    simpa [tilesFrom] using h2
  | a, c :: d :: ds, k, h, b, hlast => by
    have hrec := tilesFrom_dropLast h.2 (b := b) (by simpa using hlast)
    exact ⟨⟨h.1, hrec.1⟩, hrec.2⟩

/-- A `getLast?` hit is a member of the list. -/
theorem mem_of_getLast?_eq :
    ∀ {l : List Block} {t : Block}, l.getLast? = some t → t ∈ l
  | [], _, h => by simp at h
  | [c], t, h => by
    obtain rfl : c = t := by simpa using h
    simp
  | _ :: d :: ds, t, h => by
    have h2 : (d :: ds).getLast? = some t := by simpa using h
    exact List.mem_cons.mpr (Or.inr (mem_of_getLast?_eq h2))

/-- The last tiled record has the highest address of all records. -/
theorem tilesFrom_last_max :
    ∀ {a : Nat} {bs : List Block} {k : Nat}, tilesFrom a bs k →
      ∀ {t : Block}, bs.getLast? = some t → ∀ b ∈ bs, b.addr ≤ t.addr
  | _, [], _, _, t, hlast, _, _ => by simp at hlast
  | a, [c], k, h, t, hlast, b, hb => by
    obtain rfl : c = t := by simpa using hlast
    obtain rfl : b = c := by simpa using hb
    exact Nat.le_refl _
  | a, c :: d :: ds, k, h, t, hlast, b, hb => by
    have hlast2 : (d :: ds).getLast? = some t := by simpa using hlast
    rcases List.mem_cons.mp hb with rfl | hb
    · have ht : t ∈ d :: ds := mem_of_getLast?_eq hlast2
      have h1 := (tilesFrom_le h.2 t ht).1
      have h2 := h.1
      omega
    · exact tilesFrom_last_max h.2 hlast2 b hb

/-- Every address of the tiled range is covered by some record's
header-plus-user region. -/
theorem tilesFrom_cover :
    ∀ {a : Nat} {bs : List Block} {k : Nat}, tilesFrom a bs k →
      ∀ x, a ≤ x → x < k →
        ∃ c ∈ bs, c.addr ≤ x ∧ x < c.addr + (headerSize + c.size)
  | _, [], k, h, x, hx1, hx2 => by rw [h] at hx2; omega
  | a, c :: cs, k, h, x, hx1, hx2 => by
    by_cases hin : x < a + (headerSize + c.size)
    · have h1 := h.1
      exact ⟨c, by simp, by omega, by omega⟩
    · push_neg at hin
      obtain ⟨d, hd, hd2⟩ := tilesFrom_cover h.2 x hin hx2
      exact ⟨d, by simp [hd], hd2⟩

/-- Distinct tiled records have disjoint regions, so the covering record
is unique. -/
theorem tilesFrom_cover_unique :
    ∀ {a : Nat} {bs : List Block} {k : Nat}, tilesFrom a bs k →
      ∀ x c₁ c₂, c₁ ∈ bs → c₂ ∈ bs →
        c₁.addr ≤ x → x < c₁.addr + (headerSize + c₁.size) →
        c₂.addr ≤ x → x < c₂.addr + (headerSize + c₂.size) → c₁ = c₂
  | _, [], _, _, x, c₁, c₂, h₁, _, _, _, _, _ => by simp at h₁
  | a, c :: cs, k, h, x, c₁, c₂, h₁, h₂, ha1, hb1, ha2, hb2 => by
    rcases List.mem_cons.mp h₁ with h₁e | h₁t
    · rcases List.mem_cons.mp h₂ with h₂e | h₂t
      · rw [h₁e, h₂e]
      · exfalso
        have hd := (tilesFrom_le h.2 c₂ h₂t).1
        rw [h₁e] at hb1
        have h1 := h.1
        omega
    · rcases List.mem_cons.mp h₂ with h₂e | h₂t
      · exfalso
        have hd := (tilesFrom_le h.2 c₁ h₁t).1
        rw [h₂e] at hb2
        have h1 := h.1
        omega
      · exact tilesFrom_cover_unique h.2 x c₁ c₂ h₁t h₂t ha1 hb1 ha2 hb2

/-! ### Preservation of the tiling invariant by every operation -/

/-- Replacing a record by one with the same address and size keeps the
tiling. -/
theorem tilesFrom_set :
    ∀ {a : Nat} {bs : List Block} {k : Nat} {i : Nat} {b b2 : Block},
      tilesFrom a bs k → bs[i]? = some b →
      b2.addr = b.addr → b2.size = b.size →
      tilesFrom a (bs.set i b2) k
  | _, [], _, i, _, _, _, hib, _ => by simp at hib
  | a, c :: cs, k, 0, b, b2, h, hib, haddr => by
    obtain rfl : c = b := by simpa using hib
    intro hsize
    refine ⟨by rw [haddr]; exact h.1, ?_⟩
    rw [haddr, hsize] at *
    exact h.2
  | a, c :: cs, k, i + 1, b, b2, h, hib, haddr => by
    intro hsize
    exact ⟨h.1, tilesFrom_set h.2 (by simpa using hib) haddr hsize⟩

/-- Mapping a function that keeps address and size keeps the tiling. -/
theorem tilesFrom_map :
    ∀ {a : Nat} {bs : List Block} {k : Nat} {f : Block → Block},
      tilesFrom a bs k →
      (∀ c, (f c).addr = c.addr ∧ (f c).size = c.size) →
      tilesFrom a (bs.map f) k
  | _, [], k, f, h, _ => h
  | a, c :: cs, k, f, h, hf => by
    refine ⟨by rw [(hf c).1]; exact h.1, ?_⟩
    rw [(hf c).2]
    exact tilesFrom_map h.2 hf

/-- Appending a fresh record at the break extends the tiling by
`headerSize + size`. -/
theorem tilesFrom_append :
    ∀ {a : Nat} {bs : List Block} {k : Nat} {n : Nat},
      tilesFrom a bs k →
      tilesFrom a (bs ++ [{ addr := k, size := n, is_free := false }])
        (k + (headerSize + n))
  | a, [], k, n, h => by
    have hk : k = a := h
    subst hk
    exact ⟨rfl, rfl⟩
  | a, c :: cs, k, n, h => ⟨h.1, tilesFrom_append h.2⟩

/-- In a tiled state, the end-of-heap test of `free` can only fire on the
genuine user pointer of the last record of the list. -/
theorem free_trigger {a : Nat} {bs : List Block} {k : Nat} {p : Nat}
    {b : Block} (hinv : tilesFrom a bs k)
    (hfind : bs.find? (fun c => c.addr == p - headerSize) = some b)
    (hend : p + b.size = k) :
    p = b.addr + headerSize ∧ bs.getLast? = some b := by
  have hb : b ∈ bs := List.mem_of_find?_eq_some hfind
  have haddr : b.addr = p - headerSize := by
    have := List.find?_some hfind
    simpa using this
  have hbnd := (tilesFrom_le hinv b hb).2
  have hp : p = b.addr + headerSize := by
    rw [haddr]
    omega
  refine ⟨hp, tilesFrom_last hinv b hb ?_⟩
  omega

/-- Equation: `malloc` on a zero request. -/
theorem malloc_zero (s : AllocState) (ok : Bool) :
    malloc s 0 ok = (none, s) := by
  rw [malloc, if_pos rfl]

/-- Equation: `malloc` when a free block is reused. -/
theorem malloc_eq_reuse {s : AllocState} {i : Nat} {b : Block}
    (n : Nat) (ok : Bool) (hn : n ≠ 0)
    (hg : get_free_block n s.blocks = some (i, b)) :
    malloc s n ok = (some b.userPtr,
      { s with blocks := s.blocks.set i { b with is_free := false } }) := by
  rw [malloc, if_neg hn, hg]

/-- Equation: `malloc` when the heap is grown. -/
theorem malloc_eq_grow {s : AllocState} (n : Nat) (hn : n ≠ 0)
    (hg : get_free_block n s.blocks = none) :
    malloc s n true = (some (s.brk + headerSize),
      { s with
        blocks := s.blocks ++ [{ addr := s.brk, size := n, is_free := false }],
        brk := s.brk + (headerSize + n) }) := by
  rw [malloc, if_neg hn, hg]
  rfl

/-- Equation: `malloc` when growth is needed but `sbrk` fails. -/
theorem malloc_eq_fail {s : AllocState} (n : Nat) (hn : n ≠ 0)
    (hg : get_free_block n s.blocks = none) :
    malloc s n false = (none, s) := by
  rw [malloc, if_neg hn, hg]
  rfl

/-- The function `malloc` preserves the tiling invariant. -/
theorem malloc_tiles {base : Nat} {s : AllocState} {n : Nat} {ok : Bool}
    (hinv : tilesFrom base s.blocks s.brk) :
    tilesFrom base (malloc s n ok).2.blocks (malloc s n ok).2.brk := by
  by_cases hn : n = 0
  · subst hn
    rw [malloc_zero]
    exact hinv
  · cases hg : get_free_block n s.blocks with
    | none =>
      cases ok with
      | true =>
        rw [malloc_eq_grow n hn hg]
        exact tilesFrom_append hinv
      | false =>
        rw [malloc_eq_fail n hn hg]
        exact hinv
    | some ib =>
      obtain ⟨i, b⟩ := ib
      rw [malloc_eq_reuse n ok hn hg]
      exact tilesFrom_set hinv (get_free_block_sound hg).1 rfl rfl

/-- The function `free` preserves the tiling invariant. -/
theorem free_tiles {base : Nat} {s : AllocState} {p : Nat}
    (hinv : tilesFrom base s.blocks s.brk) :
    tilesFrom base (free s p).blocks (free s p).brk := by
  by_cases hp : p = 0
  · rw [free, if_pos hp]
    exact hinv
  · rw [free, if_neg hp]
    cases hf : s.blocks.find? (fun c => c.addr == p - headerSize) with
    | none =>
      simp only [hf]
      exact hinv
    | some b =>
      simp only [hf]
      by_cases hend : p + b.size = s.brk
      · rw [if_pos hend]
        obtain ⟨hpb, hlast⟩ := free_trigger hinv hf hend
        obtain ⟨hdrop, hk⟩ := tilesFrom_dropLast hinv hlast
        have hbrk : s.brk - (headerSize + b.size) = b.addr := by omega
        simp only [hbrk]
        by_cases hone : s.blocks.length = 1
        · rw [if_pos hone]
          obtain ⟨c, hc⟩ := List.length_eq_one.mp hone
          rw [hc] at hdrop
          simpa using hdrop
        · rw [if_neg hone]
          exact hdrop
      · rw [if_neg hend]
        refine tilesFrom_map hinv ?_
        intro c
        split <;> simp

/-- The function `calloc` preserves the tiling invariant. -/
theorem calloc_tiles {base : Nat} {s : AllocState} {num nsize : Nat}
    {ok : Bool} (hinv : tilesFrom base s.blocks s.brk) :
    tilesFrom base (calloc s num nsize ok).2.blocks
      (calloc s num nsize ok).2.brk := by
  rw [calloc]
  split
  · exact hinv
  · split
    · exact hinv
    · rcases hm : malloc s ((num * nsize) % SIZE_MOD) ok with ⟨r, s1⟩
      have h1 : tilesFrom base s1.blocks s1.brk := by
        have h2 := @malloc_tiles base s ((num * nsize) % SIZE_MOD) ok hinv
        rw [hm] at h2
        exact h2
      cases r with
      | none => exact h1
      | some q => exact h1

/-- The function `realloc` preserves the tiling invariant. -/
theorem realloc_tiles {base : Nat} {s : AllocState} {p n : Nat} {ok : Bool}
    (hinv : tilesFrom base s.blocks s.brk) :
    tilesFrom base (realloc s p n ok).2.blocks (realloc s p n ok).2.brk := by
  rw [realloc]
  split
  · exact malloc_tiles hinv
  · cases hf : s.blocks.find? (fun c => c.addr == p - headerSize) with
    | none =>
      simp only [hf]
      exact hinv
    | some b =>
      simp only [hf]
      split
      · exact hinv
      · rcases hm : malloc s n ok with ⟨r, s1⟩
        have h1 : tilesFrom base s1.blocks s1.brk := by
          have h2 := @malloc_tiles base s n ok hinv
          rw [hm] at h2
          exact h2
        cases r with
        | none => exact h1
        | some q =>
          exact free_tiles
            (s := { s1 with mem := memcpy s1.mem q p b.size }) h1

/-- Every client call preserves the tiling invariant. -/
theorem step_tiles {base : Nat} {s : AllocState} {op : Op}
    (hinv : tilesFrom base s.blocks s.brk) :
    tilesFrom base (step s op).blocks (step s op).brk := by
  rcases op with ⟨n, ok⟩ | ⟨p⟩ | ⟨a, b, ok⟩ | ⟨p, n, ok⟩
  · exact malloc_tiles hinv
  · exact free_tiles hinv
  · exact calloc_tiles hinv
  · exact realloc_tiles hinv

/-- The tiling invariant holds in every reachable state. -/
theorem run_tiles {base : Nat} :
    ∀ (ops : List Op) (s : AllocState),
      tilesFrom base s.blocks s.brk →
      tilesFrom base (run s ops).blocks (run s ops).brk
  | [], s, hinv => hinv
  | op :: ops, s, hinv => run_tiles ops (step s op) (step_tiles hinv)

/-! ### C6: the reachable-state invariant -/

/-- C6: in every state reachable by any sequence of the four calls, the
records tile the managed heap exactly (`tilesFrom`), list order is strict
address order, the tail record has the highest address of all records, and
every address from the head record to the break lies in exactly one
record's header-plus-user region. -/
theorem claim6 (base : Nat) (m : Nat → Nat) (ops : List Op) :
    tilesFrom base (run (init base m) ops).blocks (run (init base m) ops).brk
    ∧ (run (init base m) ops).blocks.Pairwise (fun x y => x.addr < y.addr)
    ∧ (∀ t, (run (init base m) ops).blocks.getLast? = some t →
        ∀ b ∈ (run (init base m) ops).blocks, b.addr ≤ t.addr)
    ∧ (∀ hd, (run (init base m) ops).blocks.head? = some hd →
        ∀ x, hd.addr ≤ x → x < (run (init base m) ops).brk →
          ∃ c ∈ (run (init base m) ops).blocks,
            (c.addr ≤ x ∧ x < c.addr + (headerSize + c.size))
            ∧ ∀ d ∈ (run (init base m) ops).blocks,
                d.addr ≤ x → x < d.addr + (headerSize + d.size) → d = c) := by
  have hinv : tilesFrom base (run (init base m) ops).blocks
      (run (init base m) ops).brk :=
    run_tiles ops (init base m) rfl
  refine ⟨hinv, tilesFrom_pairwise hinv, ?_, ?_⟩
  · intro t hlast b hb
    exact tilesFrom_last_max hinv hlast b hb
  · intro hd hhd x hx1 hx2
    have hbase : hd.addr = base := by
      rcases he : (run (init base m) ops).blocks with _ | ⟨c, cs⟩
      · rw [he] at hhd
        simp at hhd
      · rw [he] at hhd
        obtain rfl : c = hd := by simpa using hhd
        rw [he] at hinv
        exact hinv.1
    obtain ⟨c, hc, hc2⟩ := tilesFrom_cover hinv x (by omega) hx2
    exact ⟨c, hc, hc2, fun d hd1 hd2 hd3 =>
      tilesFrom_cover_unique hinv x d c hd1 hc hd2 hd3 hc2.1 hc2.2⟩

/-- Witness for C6 at a concrete trace. -/
theorem claim6_witness :
    tilesFrom 0 (run (init 0 (fun _ => 0))
        [Op.mallocOp 5 true, Op.mallocOp 3 true, Op.freeOp 24]).blocks
      (run (init 0 (fun _ => 0))
        [Op.mallocOp 5 true, Op.mallocOp 3 true, Op.freeOp 24]).brk
    ∧ (run (init 0 (fun _ => 0))
        [Op.mallocOp 5 true, Op.mallocOp 3 true, Op.freeOp 24]).blocks.Pairwise
        (fun x y => x.addr < y.addr)
    ∧ (∀ t, (run (init 0 (fun _ => 0))
          [Op.mallocOp 5 true, Op.mallocOp 3 true,
            Op.freeOp 24]).blocks.getLast? = some t →
        ∀ b ∈ (run (init 0 (fun _ => 0))
          [Op.mallocOp 5 true, Op.mallocOp 3 true,
            Op.freeOp 24]).blocks, b.addr ≤ t.addr)
    ∧ (∀ hd, (run (init 0 (fun _ => 0))
          [Op.mallocOp 5 true, Op.mallocOp 3 true,
            Op.freeOp 24]).blocks.head? = some hd →
        ∀ x, hd.addr ≤ x → x < (run (init 0 (fun _ => 0))
          [Op.mallocOp 5 true, Op.mallocOp 3 true, Op.freeOp 24]).brk →
          ∃ c ∈ (run (init 0 (fun _ => 0))
            [Op.mallocOp 5 true, Op.mallocOp 3 true, Op.freeOp 24]).blocks,
            (c.addr ≤ x ∧ x < c.addr + (headerSize + c.size))
            ∧ ∀ d ∈ (run (init 0 (fun _ => 0))
                [Op.mallocOp 5 true, Op.mallocOp 3 true,
                  Op.freeOp 24]).blocks,
                d.addr ≤ x → x < d.addr + (headerSize + d.size) → d = c) :=
  claim6 0 (fun _ => 0) [Op.mallocOp 5 true, Op.mallocOp 3 true, Op.freeOp 24]

/-! ### The two paths of `free` on a live pointer -/

/-- In a tiled state, releasing a pointer whose user region ends at the
break unlinks the tail record and retracts the break by exactly
`headerSize + size`. -/
theorem free_release {base : Nat} {s : AllocState} {p : Nat} {b : Block}
    (hinv : tilesFrom base s.blocks s.brk)
    (hb : b ∈ s.blocks) (hp : p = b.addr + headerSize)
    (hend : p + b.size = s.brk) :
    free s p = { s with blocks := s.blocks.dropLast,
                        brk := s.brk - (headerSize + b.size) }
    ∧ s.blocks.getLast? = some b
    ∧ headerSize + b.size ≤ s.brk := by
  have hp0 : p ≠ 0 := by rw [hp, headerSize]; omega
  have hsub : p - headerSize = b.addr := by rw [hp]; omega
  have hfind : s.blocks.find? (fun c => c.addr == p - headerSize) = some b := by
    rw [hsub]
    exact find?_addr_self (tilesFrom_distinct hinv) hb
  have hlast : s.blocks.getLast? = some b :=
    tilesFrom_last hinv b hb (by omega)
  have hbnd := (tilesFrom_le hinv b hb).2
  refine ⟨?_, hlast, by omega⟩
  rw [free, if_neg hp0]
  simp only [hfind]
  rw [if_pos hend]
  by_cases hone : s.blocks.length = 1
  · rw [if_pos hone]
    obtain ⟨c, hc⟩ := List.length_eq_one.mp hone
    rw [hc]
    rfl
  · rw [if_neg hone]

/-- In a tiled state, releasing a pointer whose user region does not end at
the break only sets that record's free flag: every other record, the list
structure, the break and the memory are untouched. -/
theorem free_mark {base : Nat} {s : AllocState} {p : Nat} {b : Block}
    (hinv : tilesFrom base s.blocks s.brk)
    (hb : b ∈ s.blocks) (hp : p = b.addr + headerSize)
    (hend : p + b.size ≠ s.brk) :
    free s p = { s with blocks := s.blocks.map (fun c =>
      if c = b then { c with is_free := true } else c) } := by
  have hp0 : p ≠ 0 := by rw [hp, headerSize]; omega
  have hsub : p - headerSize = b.addr := by rw [hp]; omega
  have hfind : s.blocks.find? (fun c => c.addr == p - headerSize) = some b := by
    rw [hsub]
    exact find?_addr_self (tilesFrom_distinct hinv) hb
  rw [free, if_neg hp0]
  simp only [hfind]
  rw [if_neg hend]
  have hmap : s.blocks.map (fun c =>
      if c.addr == p - headerSize then { c with is_free := true } else c)
      = s.blocks.map (fun c =>
      if c = b then { c with is_free := true } else c) := by
    refine List.map_congr_left ?_
    intro c hc
    by_cases hcb : c = b
    · subst hcb
      rw [if_pos (by rw [hsub]; exact beq_self_eq_true _), if_pos rfl]
    · rw [if_neg hcb]
      have hne : c.addr ≠ b.addr := by
        have hpw := tilesFrom_distinct hinv
        intro he
        exact hcb (tilesFrom_cover_unique hinv b.addr c b hc hb
          (by omega) (by rw [he, headerSize]; omega)
          (by omega) (by rw [headerSize]; omega))
      rw [if_neg (by rw [hsub]; simpa using hne)]
  rw [hmap]

/-! ### C2: `release` on a live pointer -/

/-- C2: for a live pointer `p` with record `b` in a tiled state: if the
user region ends at the break, `free` removes the (necessarily last)
record from the list, leaves every other record untouched (flags
included), and retracts the break by exactly `headerSize + size`; if not,
it only sets `b`'s free flag, leaving every other record, the list
structure, the break and the memory unchanged. -/
theorem claim2 (base : Nat) (s : AllocState) (p : Nat) (b : Block)
    (hinv : tilesFrom base s.blocks s.brk)
    (hb : b ∈ s.blocks) (hp : p = b.addr + headerSize) :
    (p + b.size = s.brk →
      free s p = { s with blocks := s.blocks.dropLast,
                          brk := s.brk - (headerSize + b.size) }
      ∧ s.blocks.getLast? = some b
      ∧ (free s p).brk + (headerSize + b.size) = s.brk)
    ∧ (p + b.size ≠ s.brk →
      free s p = { s with blocks := s.blocks.map (fun c =>
        if c = b then { c with is_free := true } else c) }) := by
  constructor
  · intro hend
    obtain ⟨heq, hlast, hle⟩ := free_release hinv hb hp hend
    refine ⟨heq, hlast, ?_⟩
    rw [heq]
    exact Nat.sub_add_cancel hle
  · intro hend
    exact free_mark hinv hb hp hend

/-- Witness for C2: a two-block state; releasing the trailing block
retracts the break, releasing the interior block only marks it free. -/
theorem claim2_witness :
    (free { blocks := [{ addr := 0, size := 5, is_free := false },
                       { addr := 29, size := 3, is_free := false }],
            brk := 56, mem := fun _ => 0 } 53
      = { blocks := [({ addr := 0, size := 5, is_free := false } : Block),
            { addr := 29, size := 3, is_free := false }].dropLast,
          brk := 56 - (headerSize + 3), mem := fun _ => 0 }
      ∧ [({ addr := 0, size := 5, is_free := false } : Block),
          { addr := 29, size := 3, is_free := false }].getLast?
          = some { addr := 29, size := 3, is_free := false }
      ∧ (free { blocks := [{ addr := 0, size := 5, is_free := false },
                           { addr := 29, size := 3, is_free := false }],
                brk := 56, mem := fun _ => 0 } 53).brk + (headerSize + 3)
          = 56)
    ∧ free { blocks := [{ addr := 0, size := 5, is_free := false },
                        { addr := 29, size := 3, is_free := false }],
             brk := 56, mem := fun _ => 0 } 24
      = { blocks := [({ addr := 0, size := 5, is_free := false } : Block),
            { addr := 29, size := 3, is_free := false }].map (fun c =>
              if c = { addr := 0, size := 5, is_free := false }
              then { c with is_free := true } else c),
          brk := 56, mem := fun _ => 0 } :=
  ⟨(claim2 0 { blocks := [{ addr := 0, size := 5, is_free := false },
                          { addr := 29, size := 3, is_free := false }],
               brk := 56, mem := fun _ => 0 } 53
      { addr := 29, size := 3, is_free := false }
      (by decide) (by decide) (by decide)).1 (by decide),
   (claim2 0 { blocks := [{ addr := 0, size := 5, is_free := false },
                          { addr := 29, size := 3, is_free := false }],
               brk := 56, mem := fun _ => 0 } 24
      { addr := 0, size := 5, is_free := false }
      (by decide) (by decide) (by decide)).2 (by decide)⟩

/-! ### C4: growing `realloc` -/

/-- A failed `malloc` changes nothing. -/
theorem malloc_none {s : AllocState} {n : Nat} {ok : Bool}
    (h : (malloc s n ok).1 = none) : malloc s n ok = (none, s) := by
  by_cases hn : n = 0
  · subst hn
    exact malloc_zero s ok
  · cases hg : get_free_block n s.blocks with
    | some ib =>
      obtain ⟨i, b⟩ := ib
      rw [malloc_eq_reuse n ok hn hg] at h
      simp at h
    | none =>
      cases ok with
      | true =>
        rw [malloc_eq_grow n hn hg] at h
        simp at h
      | false => exact malloc_eq_fail n hn hg

/-- C4: for a live pointer whose record is smaller than the request,
`realloc` calls `malloc(size)`; on success it copies exactly the old
recorded size bytes into the new region (touching no other byte), releases
the old pointer, and returns the new pointer; on failure it returns null
and the whole state — the old record, its contents, the list, the break —
is exactly as before. -/
theorem claim4 (s : AllocState) (p size : Nat) (b : Block) (ok : Bool)
    (hdist : s.blocks.Pairwise (fun x y => x.addr ≠ y.addr))
    (hb : b ∈ s.blocks) (hp : p = b.addr + headerSize)
    (hgrow : b.size < size) :
    ((malloc s size ok).1 = none → realloc s p size ok = (none, s))
    ∧ (∀ np s1, malloc s size ok = (some np, s1) →
        realloc s p size ok
          = (some np, free { s1 with mem := memcpy s1.mem np p b.size } p)
        ∧ (realloc s p size ok).1 = some np
        ∧ (∀ a, np ≤ a → a < np + b.size →
            (realloc s p size ok).2.mem a = s.mem (p + (a - np)))
        ∧ (∀ a, a < np ∨ np + b.size ≤ a →
            (realloc s p size ok).2.mem a = s.mem a)) := by
  have hp0 : p ≠ 0 := by rw [hp, headerSize]; omega
  have hsub : p - headerSize = b.addr := by rw [hp]; omega
  have hfind : s.blocks.find? (fun c => c.addr == p - headerSize) = some b := by
    rw [hsub]
    exact find?_addr_self hdist hb
  have hre : realloc s p size ok =
      match malloc s size ok with
      | (some np, s1) =>
        (some np, free { s1 with mem := memcpy s1.mem np p b.size } p)
      | (none, s1) => (none, s1) := by
    rw [realloc, if_neg (by omega)]
    simp only [hfind]
    rw [if_neg (by omega)]
  constructor
  · intro hnone
    rw [hre, malloc_none hnone]
  · intro np s1 hm
    have heq : realloc s p size ok
        = (some np, free { s1 with mem := memcpy s1.mem np p b.size } p) := by
      rw [hre, hm]
    have hmem : (realloc s p size ok).2.mem = memcpy s1.mem np p b.size := by
      rw [heq]
      exact free_mem _ _
    have hs1mem : s1.mem = s.mem := by
      have h2 := malloc_mem s size ok
      rw [hm] at h2
      exact h2
    refine ⟨heq, by rw [heq], ?_, ?_⟩
    · intro a ha1 ha2
      rw [hmem]
      simp only [memcpy]
      rw [if_pos ⟨ha1, ha2⟩, hs1mem]
    · intro a ha
      rw [hmem]
      simp only [memcpy]
      rw [if_neg (by omega), hs1mem]

/-- Witness for C4: growing a live 5-byte block to 10 bytes in a one-block
heap; memory is the identity function so the copy is visible. -/
theorem claim4_witness :
    ((malloc { blocks := [{ addr := 0, size := 5, is_free := false }],
               brk := 29, mem := fun a => a } 10 true).1 = none →
      realloc { blocks := [{ addr := 0, size := 5, is_free := false }],
                brk := 29, mem := fun a => a } 24 10 true
        = (none, { blocks := [{ addr := 0, size := 5, is_free := false }],
                   brk := 29, mem := fun a => a }))
    ∧ (∀ np s1,
        malloc { blocks := [{ addr := 0, size := 5, is_free := false }],
                 brk := 29, mem := fun a => a } 10 true = (some np, s1) →
        realloc { blocks := [{ addr := 0, size := 5, is_free := false }],
                  brk := 29, mem := fun a => a } 24 10 true
          = (some np, free { s1 with mem := memcpy s1.mem np 24 5 } 24)
        ∧ (realloc { blocks := [{ addr := 0, size := 5, is_free := false }],
                     brk := 29, mem := fun a => a } 24 10 true).1 = some np
        ∧ (∀ a, np ≤ a → a < np + 5 →
            (realloc { blocks := [{ addr := 0, size := 5, is_free := false }],
                       brk := 29, mem := fun a => a } 24 10 true).2.mem a
              = (fun a => a) (24 + (a - np)))
        ∧ (∀ a, a < np ∨ np + 5 ≤ a →
            (realloc { blocks := [{ addr := 0, size := 5, is_free := false }],
                       brk := 29, mem := fun a => a } 24 10 true).2.mem a
              = (fun a => a) a)) :=
  claim4 { blocks := [{ addr := 0, size := 5, is_free := false }],
           brk := 29, mem := fun a => a } 24 10
    { addr := 0, size := 5, is_free := false } true
    (by decide) (by decide) (by decide) (by decide)

/-! ### C7: boundary retraction after `allocate(100)` + `release`

The original claim — the break always drops by exactly
`headerSize + 100` — fails when `malloc 100` reuses a larger free block
that is (or becomes) the tail: the retraction uses the recorded size of
the reused record, not the requested 100. -/

/-- Counterexample to C7 as stated: grow a 150-byte block and an 8-byte
block, free both (the first is interior and is only marked free; the
second is trailing and is unlinked, making the 150-byte block the tail),
then `malloc 100` reuses the free 150-byte tail block and returns its user
pointer 24; releasing it while it is the current tail drops the break by
`headerSize + 150 = 174`, not `headerSize + 100 = 124`. -/
theorem claim7_cex :
    (malloc (run (init 0 (fun _ => 0))
      [Op.mallocOp 150 true, Op.mallocOp 8 true, Op.freeOp 24,
        Op.freeOp 198]) 100 true).1 = some 24
    ∧ (malloc (run (init 0 (fun _ => 0))
        [Op.mallocOp 150 true, Op.mallocOp 8 true, Op.freeOp 24,
          Op.freeOp 198]) 100 true).2.blocks.getLast?
        = some { addr := 0, size := 150, is_free := false }
    ∧ (24 : Nat) = 0 + headerSize
    ∧ (malloc (run (init 0 (fun _ => 0))
        [Op.mallocOp 150 true, Op.mallocOp 8 true, Op.freeOp 24,
          Op.freeOp 198]) 100 true).2.brk = 174
    ∧ (free (malloc (run (init 0 (fun _ => 0))
        [Op.mallocOp 150 true, Op.mallocOp 8 true, Op.freeOp 24,
          Op.freeOp 198]) 100 true).2 24).brk = 0
    ∧ (malloc (run (init 0 (fun _ => 0))
        [Op.mallocOp 150 true, Op.mallocOp 8 true, Op.freeOp 24,
          Op.freeOp 198]) 100 true).2.brk
      - (free (malloc (run (init 0 (fun _ => 0))
          [Op.mallocOp 150 true, Op.mallocOp 8 true, Op.freeOp 24,
            Op.freeOp 198]) 100 true).2 24).brk ≠ headerSize + 100 := by
  exact ⟨rfl, rfl, by decide, rfl, rfl, by decide⟩

/-- C7 (amended): when `p = allocate(100)` succeeds and `p`'s record is
the current tail at `release(p)`, the break drops by exactly
`headerSize + (recorded size of p's record)`; this equals
`headerSize + 100` whenever the allocation grew the heap (no free block
was reused), but the recorded size may exceed 100 when a larger free
block was reused. -/
theorem claim7 (s0 : AllocState) (base p : Nat) (b : Block) (ok : Bool)
    (hinv : tilesFrom base s0.blocks s0.brk)
    (hp : (malloc s0 100 ok).1 = some p)
    (hb : b ∈ (malloc s0 100 ok).2.blocks)
    (hpb : p = b.addr + headerSize)
    (htail : (malloc s0 100 ok).2.blocks.getLast? = some b) :
    (malloc s0 100 ok).2.brk - (free (malloc s0 100 ok).2 p).brk
      = headerSize + b.size
    ∧ (free (malloc s0 100 ok).2 p).brk + (headerSize + b.size)
      = (malloc s0 100 ok).2.brk
    ∧ (get_free_block 100 s0.blocks = none →
        (malloc s0 100 ok).2.brk - (free (malloc s0 100 ok).2 p).brk
          = headerSize + 100) := by
  have hinv1 : tilesFrom base (malloc s0 100 ok).2.blocks
      (malloc s0 100 ok).2.brk := malloc_tiles hinv
  have hk := (tilesFrom_dropLast hinv1 htail).2
  have hend : p + b.size = (malloc s0 100 ok).2.brk := by
    rw [hpb]
    omega
  obtain ⟨heq, _, hle⟩ := free_release hinv1 hb hpb hend
  have hdrop : (malloc s0 100 ok).2.brk - (free (malloc s0 100 ok).2 p).brk
      = headerSize + b.size := by
    rw [heq]
    simp only
    omega
  refine ⟨hdrop, by rw [heq]; simp only; omega, ?_⟩
  intro hg
  cases ok with
  | false =>
    rw [malloc_eq_fail 100 (by omega) hg] at hp
    simp at hp
  | true =>
    have hgrow := malloc_eq_grow 100 (s := s0) (by omega) hg
    have hlast2 : (malloc s0 100 true).2.blocks.getLast?
        = some { addr := s0.brk, size := 100, is_free := false } := by
      rw [hgrow]
      exact List.getLast?_concat _
    have hbeq : b = { addr := s0.brk, size := 100, is_free := false } := by
      rw [htail] at hlast2
      simpa using hlast2
    rw [hdrop, hbeq]

/-- Witness for the amended C7: `allocate(100)` on an empty heap grows by
`headerSize + 100 = 124` and releasing it retracts exactly that. -/
theorem claim7_witness :
    ((malloc { blocks := [], brk := 0, mem := fun _ => 0 } 100 true).2.brk
      - (free (malloc { blocks := [], brk := 0, mem := fun _ => 0 }
          100 true).2 24).brk
      = headerSize + 100
    ∧ (free (malloc { blocks := [], brk := 0, mem := fun _ => 0 }
          100 true).2 24).brk + (headerSize + 100)
      = (malloc { blocks := [], brk := 0, mem := fun _ => 0 } 100 true).2.brk
    ∧ (get_free_block 100
        ({ blocks := [], brk := 0, mem := fun _ => 0 } : AllocState).blocks
          = none →
        (malloc { blocks := [], brk := 0, mem := fun _ => 0 } 100 true).2.brk
          - (free (malloc { blocks := [], brk := 0, mem := fun _ => 0 }
              100 true).2 24).brk = headerSize + 100)) :=
  claim7 { blocks := [], brk := 0, mem := fun _ => 0 } 0 24
    { addr := 0, size := 100, is_free := false } true
    (by decide) rfl (by decide) (by decide) (by decide)

end Memalloc
